import Mathlib

/-!
Shallow embedding of the interval-remapping ("translation table") engine of
`src/day_05/src/main.rs`, together with the rule parser it relies on
(`TranslationRule::from_str`, error plumbing from `src/utils/src/result.rs`),
and the two entry points `part_one` and `part_two`.

Machine integers are modelled as follows: `u64` values are `Nat`s and `i64`
values are `Int`s; every arithmetic operation the Rust source performs on
them is reduced modulo `2^64` exactly where the source's wrapping `as` casts
and release-mode wrapping arithmetic reduce it.  A Rust function that can
panic (an `unwrap`, a failed contract check in `TranslationRule::new` or
`TranslationRule::split`) is modelled as returning `Option`, with `none`
standing for the panic; fallible parsing returns `Except`.
-/

/-- The number of `u64` values, `2^64`. -/
def u64size : Nat := 18446744073709551616

/-- Reduce an integer into `u64` range, as Rust's wrapping `as u64` cast does
(also the composite of a wrapping `i64` operation followed by `as u64`,
since both only matter modulo `2^64`). -/
def toU64 (v : Int) : Nat := (v % (u64size : Int)).toNat

/-- Wrap an integer into `i64` range `[-2^63, 2^63)`, as release-mode `i64`
arithmetic does. -/
def wi64 (v : Int) : Int := (v + 9223372036854775808) % 18446744073709551616 - 9223372036854775808

/-- `TranslationRule` of day 05: inputs in `[start, end]` (inclusive) map to
`input + delta`.  Field `end` of the Rust struct is written `«end»`. -/
structure TranslationRule where
  start : Nat
  «end» : Nat
  delta : Int
deriving DecidableEq, Repr

/-- `TranslationRule::source_range`. -/
def TranslationRule.source_range (r : TranslationRule) : Nat × Nat :=
  (r.start, r.«end»)

/-- `TranslationRule::destination_range`: both bounds shifted by `delta`
(with the source's `as i64` / `as u64` wrapping casts). -/
def TranslationRule.destination_range (r : TranslationRule) : Nat × Nat :=
  (toU64 ((r.start : Int) + r.delta), toU64 ((r.«end» : Int) + r.delta))

/-- `TranslationRule::translate`: `Some (input + delta)` when
`start <= input <= end`, `None` otherwise. -/
def TranslationRule.translate (r : TranslationRule) (input : Nat) : Option Nat :=
  if r.start ≤ input ∧ input ≤ r.«end» then some (toU64 ((input : Int) + r.delta)) else none

/-- `TranslationRule::overlaps_with` on two inclusive ranges. -/
def TranslationRule.overlaps_with (a b : Nat × Nat) : Bool :=
  (decide (b.1 ≤ a.1) && decide (a.1 ≤ b.2)) || (decide (a.1 ≤ b.1) && decide (b.1 ≤ a.2))

/-- `TranslationRule::new`: panics (modelled as `none`) when `start > end`,
otherwise returns the rule built from its arguments unchanged. -/
def TranslationRule.new (start «end» : Nat) (delta : Int) : Option TranslationRule :=
  if start > «end» then none else some { start := start, «end» := «end», delta := delta }

/-- `TranslationRule::split`: panics (modelled as `none`) when `length == 0`
or `start + length >= end` (wrapping `u64` addition), otherwise splits the
rule into `[start, start+length-1]` and `[start+length, end]`. -/
def TranslationRule.split (r : TranslationRule) (length : Nat) :
    Option (TranslationRule × TranslationRule) :=
  if length = 0 ∨ r.«end» ≤ toU64 ((r.start : Int) + length) then none
  else
    some ({ start := r.start, «end» := toU64 ((r.start : Int) + length - 1), delta := r.delta },
          { start := toU64 ((r.start : Int) + length), «end» := r.«end», delta := r.delta })

/-- `[r.start, r.end]` contains `x` (the guard of `TranslationRule::translate`). -/
def ruleContains (r : TranslationRule) (x : Nat) : Prop :=
  r.start ≤ x ∧ x ≤ r.«end»

instance (r : TranslationRule) (x : Nat) : Decidable (ruleContains r x) :=
  inferInstanceAs (Decidable (_ ∧ _))

/-- `TranslationTable` of day 05: an `im::Vector` of rules, modelled as a list. -/
structure TranslationTable where
  rules : List TranslationRule
deriving DecidableEq, Repr

/-- The order under the source's `sorted()` call on rules: `Ord for
TranslationRule` compares by `start` only. -/
def ruleLe (a b : TranslationRule) : Prop := a.start ≤ b.start

instance : DecidableRel ruleLe := fun a b => inferInstanceAs (Decidable (_ ≤ _))

instance : IsTotal TranslationRule ruleLe := ⟨fun a b => Nat.le_total a.start b.start⟩

instance : IsTrans TranslationRule ruleLe := ⟨fun _ _ _ h1 h2 => Nat.le_trans h1 h2⟩

/-- `TranslationTable::new`: collect the rules in sorted order (itertools'
`sorted()` is a stable sort by the `Ord` instance, i.e. by `start`; a stable
sort is extensionally unique, and we model it by the structurally recursive
stable `insertionSort`). -/
def TranslationTable.new (rules : List TranslationRule) : TranslationTable :=
  ⟨List.insertionSort ruleLe rules⟩

/-- `TranslationTable::translate`: the value of the first rule (in list
order) that matches, or the input itself when no rule matches. -/
def TranslationTable.translate (t : TranslationTable) (input : Nat) : Nat :=
  (t.rules.findSome? (fun r => r.translate input)).getD input

/-- The per-rule closure inside `TranslationTable::clear`: a rule fully
inside the cleared range is dropped, a rule not overlapping it is kept, and
otherwise the fragments whose guards hold are kept (note the strict
comparisons of the source). -/
def clearFragments (input_range : Nat × Nat) (rule : TranslationRule) : List TranslationRule :=
  if input_range.1 ≤ rule.start ∧ rule.«end» ≤ input_range.2 then []
  else if ¬ (TranslationRule.overlaps_with input_range rule.source_range = true) then [rule]
  else
    (if rule.start < input_range.1 ∧ input_range.1 < rule.«end» then
      [{ rule with «end» := toU64 ((input_range.1 : Int) - 1) }] else []) ++
    (if rule.start < input_range.2 ∧ input_range.2 < rule.«end» then
      [{ rule with start := toU64 ((input_range.2 : Int) + 1) }] else [])

/-- `TranslationTable::clear`. -/
def TranslationTable.clear (t : TranslationTable) (input_range : Nat × Nat) : TranslationTable :=
  TranslationTable.new (t.rules.flatMap (clearFragments input_range))

/-- `im::Vector::insert_ord` with the rule ordering (compare by `start`):
insert into a sorted vector at a position keeping it sorted.  (The source
finds the slot by binary search; for the tie-free uses below any
order-preserving slot is the same, and we model the linear one.) -/
def insertOrd (r : TranslationRule) : List TranslationRule → List TranslationRule
  | [] => [r]
  | x :: xs => if r.start < x.start then r :: x :: xs else x :: insertOrd r xs

/-- `TranslationTable::insert`: clear the rule's source range, then insert
the rule at its sorted position. -/
def TranslationTable.insert (t : TranslationTable) (rule : TranslationRule) : TranslationTable :=
  ⟨insertOrd rule (t.clear rule.source_range).rules⟩

/-- The `fold_while` loop of `TranslationTable::map`, walking this table's
rules against the still-unmapped `leftover` of the upstream rule.  `none`
models a panic (from `TranslationRule::new` or `TranslationRule::split`
inside the loop body). -/
def mapGo : List TranslationRule → List TranslationRule → TranslationRule →
    Option (List TranslationRule)
  | [], acc, leftover => some (acc ++ [leftover])
  | rule :: rest, acc, leftover =>
    let lds := (leftover.destination_range).1
    let lde := (leftover.destination_range).2
    if lde < rule.start then some (acc ++ [leftover])
    else if rule.«end» < lds then mapGo rest acc leftover
    else
      let dst_start := max lds rule.start
      let dst_end := min lde rule.«end»
      let in_start := toU64 ((dst_start : Int) - leftover.delta)
      let in_end := toU64 ((dst_end : Int) - leftover.delta)
      match TranslationRule.new in_start in_end (wi64 (leftover.delta + rule.delta)) with
      | none => none
      | some mapped =>
        if lds < dst_start then
          match leftover.split (dst_start - lds) with
          | none => none
          | some (lower, _) =>
            if dst_end < lde then
              mapGo rest (acc ++ [lower, mapped])
                { start := toU64 ((in_end : Int) + 1), «end» := leftover.«end»,
                  delta := leftover.delta }
            else some (acc ++ [lower, mapped])
        else
          if dst_end < lde then
            mapGo rest (acc ++ [mapped])
              { start := toU64 ((in_end : Int) + 1), «end» := leftover.«end»,
                delta := leftover.delta }
          else some (acc ++ [mapped])

/-- `TranslationTable::map`: re-express one upstream rule in this table's
deltas; the resulting rules are returned sorted.  `none` models a panic. -/
def TranslationTable.map (t : TranslationTable) (rule : TranslationRule) :
    Option (List TranslationRule) :=
  (mapGo t.rules [] rule).map (fun l => List.insertionSort ruleLe l)

/-- Concatenation of `other.map rule` over all rules of the upstream table
(the `flat_map` of `TranslationTable::fold`), propagating panics. -/
def mappedAll (rules : List TranslationRule) (other : TranslationTable) :
    Option (List TranslationRule) :=
  match rules with
  | [] => some []
  | r :: rs => do
    let m ← other.map r
    let ms ← mappedAll rs other
    pure (m ++ ms)

/-- `TranslationTable::fold`: map every rule of `self` through `other`, then
insert each mapped rule into a working copy starting as `other`. -/
def TranslationTable.fold (t other : TranslationTable) : Option TranslationTable :=
  (mappedAll t.rules other).map (fun l => l.foldl (fun acc r => acc.insert r) other)

/-- The `Translation` chain: a leaf table or a pair applied in sequence. -/
inductive Translation where
  | Table (table : TranslationTable)
  | Chain (a b : Translation)
deriving Repr

/-- `Translation::translate`: a leaf delegates to its table, a chain
translates through the first sub-chain then the second. -/
def Translation.translate : Translation → Nat → Nat
  | .Table table, input => table.translate input
  | .Chain a b, input => b.translate (a.translate input)

/-- `Translation::and_then`. -/
def Translation.and_then (a other : Translation) : Translation := .Chain a other

/-- `Translation::collapse_table`: post-order fold of the chain into one
flat table; `none` models a panic inside `fold`. -/
def Translation.collapse_table : Translation → Option TranslationTable
  | .Table table => some table
  | .Chain a b => do
    let ta ← a.collapse_table
    let tb ← b.collapse_table
    ta.fold tb

/-- `SolutionError` of `src/utils/src/result.rs` (the two variants the day
05 code can produce). -/
inductive SolutionError where
  | InputParsingFailed (msg : String)
  | NoSolutionFound
deriving DecidableEq, Repr

/-- The variants of Rust's `std::num::ParseIntError` reachable from
`<u64 as FromStr>::from_str`. -/
inductive RustParseIntError where
  | invalidDigit
  | empty
  | posOverflow
deriving DecidableEq, Repr

/-- `Display` of `ParseIntError` (the text interpolated by
`From<ParseIntError> for SolutionError`). -/
def RustParseIntError.display : RustParseIntError → String
  | .invalidDigit => "invalid digit found in string"
  | .empty => "cannot parse integer from empty string"
  | .posOverflow => "number too large to fit in target type"

/-- `str::parse::<u64>()`: an optional leading `+` sign followed by at least
one decimal digit, value below `2^64`. -/
def parseU64 (s : String) : Except RustParseIntError Nat :=
  match s.data with
  | [] => .error .empty
  | c :: cs =>
    let digits := if c = '+' then cs else c :: cs
    if digits = [] then .error .invalidDigit
    else if digits.all (fun d => d.isDigit) then
      let v := digits.foldl (fun acc d => acc * 10 + (d.toNat - 48)) 0
      if v < u64size then .ok v else .error .posOverflow
    else .error .invalidDigit

/-- Is this character ASCII whitespace (`char::is_ascii_whitespace`)? -/
def isAsciiWs (c : Char) : Bool :=
  c = ' ' || c = '\t' || c = '\n' || c = '\x0c' || c = '\r'

/-- Helper for `str::split_ascii_whitespace`: cut a character list at runs
of ASCII whitespace, dropping empty pieces; `cur` holds the reversed
characters of the token being read. -/
def wsTokens : List Char → List Char → List (List Char)
  | [], cur => if cur = [] then [] else [cur.reverse]
  | c :: rest, cur =>
    if isAsciiWs c then
      if cur = [] then wsTokens rest [] else cur.reverse :: wsTokens rest []
    else wsTokens rest (c :: cur)

/-- `str::split_ascii_whitespace` as a list of tokens. -/
def splitAsciiWhitespace (s : String) : List String :=
  (wsTokens s.data []).map (fun l => ⟨l⟩)

/-- `<TranslationRule as FromStr>::from_str`: three whitespace-separated
`u64` tokens `dest src length`; wrong token count is reported with the
offending line, a failed integer parse with the `ParseIntError` text; the
rule built is `{start: src, end: src+length-1, delta: dest - src}` (with the
source's wrapping `u64` / `i64` arithmetic). -/
def TranslationRule.from_str (s : String) : Except SolutionError TranslationRule :=
  match splitAsciiWhitespace s with
  | [ta, tb, tc] =>
    match parseU64 ta with
    | .error e => .error (.InputParsingFailed ("Parsing of an integer failed: " ++ e.display))
    | .ok dest =>
      match parseU64 tb with
      | .error e => .error (.InputParsingFailed ("Parsing of an integer failed: " ++ e.display))
      | .ok start =>
        match parseU64 tc with
        | .error e => .error (.InputParsingFailed ("Parsing of an integer failed: " ++ e.display))
        | .ok length =>
          .ok { start := start,
                «end» := toU64 ((start : Int) + length - 1),
                delta := wi64 ((dest : Int) - (start : Int)) }
  | _ => .error (.InputParsingFailed ("Could not parse rule: " ++ s))

/-- `part_one`: translate every seed through the chain and take the
minimum; an empty seed list yields `NoSolutionFound`. -/
def partOne (seeds : List Nat) (translation : Translation) : Except SolutionError Nat :=
  match (seeds.map (fun s => translation.translate s)).min? with
  | some m => .ok m
  | none => .error .NoSolutionFound

/-- Destination start of a rule (the `sorted_by_key` key of `part_two`). -/
def destStart (r : TranslationRule) : Nat := (r.destination_range).1

/-- itertools' `tuples::<(_, _)>()`: consecutive pairs, trailing element
dropped. -/
def pairsOf : List Nat → List (Nat × Nat)
  | a :: b :: rest => (a, b) :: pairsOf rest
  | _ => []

/-- The key order of `sorted_by_key(|(a, _)| *a)`. -/
def rangeLe (a b : Nat × Nat) : Prop := a.1 ≤ b.1

instance : DecidableRel rangeLe := fun a b => inferInstanceAs (Decidable (_ ≤ _))

instance : IsTotal (Nat × Nat) rangeLe := ⟨fun a b => Nat.le_total a.1 b.1⟩

instance : IsTrans (Nat × Nat) rangeLe := ⟨fun _ _ _ h1 h2 => Nat.le_trans h1 h2⟩

/-- The key order of `sorted_by_key(|rule| rule.destination_range().0)`. -/
def destLe (a b : TranslationRule) : Prop := destStart a ≤ destStart b

instance : DecidableRel destLe := fun a b => inferInstanceAs (Decidable (_ ≤ _))

instance : IsTotal TranslationRule destLe := ⟨fun a b => Nat.le_total (destStart a) (destStart b)⟩

instance : IsTrans TranslationRule destLe := ⟨fun _ _ _ h1 h2 => Nat.le_trans h1 h2⟩

/-- The seed ranges of `part_two`: consecutive `(start, length)` pairs
mapped to `(start, start + length)` and sorted by start (stable sort,
modelled by `insertionSort`). -/
def seedRanges (seeds : List Nat) : List (Nat × Nat) :=
  List.insertionSort rangeLe
    ((pairsOf seeds).map (fun p => (p.1, toU64 ((p.1 : Int) + p.2))))

/-- The `fold_while` scan of `part_two` over the destination-sorted rules:
while the next rule's destination start is below the current candidate (or
no candidate exists yet), a rule whose source range overlaps some seed range
replaces the candidate with `rule.translate(max(rule.start, range.start))`;
otherwise the scan stops.  The outer `none` models the `unwrap` panic. -/
def partTwoGo (ranges : List (Nat × Nat)) :
    List TranslationRule → Option Nat → Option (Option Nat)
  | [], lowest => some lowest
  | rule :: rest, lowest =>
    if lowest.all (fun l => decide (destStart rule < l)) then
      match ranges.find? (fun sr => TranslationRule.overlaps_with sr rule.source_range) with
      | some sr =>
        match rule.translate (max rule.start sr.1) with
        | some v => partTwoGo ranges rest (some v)
        | none => none
      | none => partTwoGo ranges rest lowest
    else some lowest

/-- `part_two`: collapse the chain, sort the rules by destination start, and
run the scan over the seed ranges; `some lowest` becomes `Ok`, exhaustion
without a candidate becomes `NoSolutionFound`.  The outer `none` models a
panic (in `collapse_table` or the `unwrap`). -/
def partTwo (seeds : List Nat) (translation : Translation) :
    Option (Except SolutionError Nat) := do
  let table ← translation.collapse_table
  let res ← partTwoGo (seedRanges seeds)
    (List.insertionSort destLe table.rules) none
  some (match res with
    | some location => .ok location
    | none => .error .NoSolutionFound)

/-- The rule list is sorted by `start` (the order `sorted()` establishes). -/
def sortedByStart (l : List TranslationRule) : Prop :=
  l.Pairwise (fun a b => a.start ≤ b.start)

/-- The rules are pairwise non-overlapping in source range. -/
def nonOverlapping (l : List TranslationRule) : Prop :=
  l.Pairwise (fun a b =>
    TranslationRule.overlaps_with a.source_range b.source_range = false)

/-- Every rule is well formed: `start <= end` (the data-model invariant) and
`end` fits in a `u64`. -/
def validRules (l : List TranslationRule) : Prop :=
  ∀ r ∈ l, r.start ≤ r.«end» ∧ r.«end» < u64size

/-- The table invariant of the spec: sorted by start and pairwise
non-overlapping in source range. -/
def tableInv (t : TranslationTable) : Prop :=
  sortedByStart t.rules ∧ nonOverlapping t.rules

instance (l : List TranslationRule) : Decidable (sortedByStart l) :=
  inferInstanceAs (Decidable (List.Pairwise _ l))

instance (l : List TranslationRule) : Decidable (nonOverlapping l) :=
  inferInstanceAs (Decidable (List.Pairwise _ l))

instance (l : List TranslationRule) : Decidable (validRules l) :=
  inferInstanceAs (Decidable (∀ r ∈ l, _ ∧ _))

instance (t : TranslationTable) : Decidable (tableInv t) :=
  inferInstanceAs (Decidable (_ ∧ _))

/-! ### Basic lemmas about the wrap-around helpers and `overlaps_with` -/

theorem toU64_coe (n : Nat) (h : n < u64size) : toU64 (n : Int) = n := by
  unfold toU64 u64size at *
  omega

theorem toU64_eq_toNat (v : Int) (h0 : 0 ≤ v) (h1 : v < (u64size : Int)) : toU64 v = v.toNat := by
  unfold toU64 u64size at *
  omega

theorem overlaps_with_eq_decide (a b : Nat × Nat) :
    TranslationRule.overlaps_with a b =
      decide ((b.1 ≤ a.1 ∧ a.1 ≤ b.2) ∨ (a.1 ≤ b.1 ∧ b.1 ≤ a.2)) := by
  simp [TranslationRule.overlaps_with]

theorem ov_false_iff (a b : Nat × Nat) :
    TranslationRule.overlaps_with a b = false ↔
      ¬ ((b.1 ≤ a.1 ∧ a.1 ≤ b.2) ∨ (a.1 ≤ b.1 ∧ b.1 ≤ a.2)) := by
  rw [overlaps_with_eq_decide]
  simp

theorem ov_true_iff (a b : Nat × Nat) :
    TranslationRule.overlaps_with a b = true ↔
      (b.1 ≤ a.1 ∧ a.1 ≤ b.2) ∨ (a.1 ≤ b.1 ∧ b.1 ≤ a.2) := by
  rw [overlaps_with_eq_decide]
  simp

theorem overlaps_with_comm (a b : Nat × Nat) :
    TranslationRule.overlaps_with a b = TranslationRule.overlaps_with b a := by
  rw [overlaps_with_eq_decide, overlaps_with_eq_decide]
  simp only [decide_eq_decide]
  tauto

/-! ### C1: point translation through a table -/

theorem rule_translate_of_contains (r : TranslationRule) (x : Nat) (h : ruleContains r x) :
    r.translate x = some (toU64 ((x : Int) + r.delta)) := by
  unfold TranslationRule.translate
  exact if_pos h

theorem rule_translate_of_not_contains (r : TranslationRule) (x : Nat) (h : ¬ ruleContains r x) :
    r.translate x = none := by
  unfold TranslationRule.translate
  exact if_neg h

/-- C1: for every table and input `x`, if the table's rule list splits as
`pre ++ r :: post` where no rule of `pre` contains `x` and `r` does (so `r`
is the first matching rule in the table's order), then `translate` returns
`x + r.delta` (as long as that sum is representable as a `u64`); and if no
rule of the table contains `x`, `translate` returns `x` unchanged. -/
theorem translate_first_match_spec (t : TranslationTable) (x : Nat) :
    (∀ pre r post, t.rules = pre ++ r :: post →
      (∀ s ∈ pre, ¬ ruleContains s x) → ruleContains r x →
      0 ≤ (x : Int) + r.delta → (x : Int) + r.delta < (u64size : Int) →
      t.translate x = ((x : Int) + r.delta).toNat) ∧
    ((∀ r ∈ t.rules, ¬ ruleContains r x) → t.translate x = x) := by
  constructor
  · intro pre r post hdec hpre hr h0 h1
    unfold TranslationTable.translate
    rw [hdec, List.findSome?_append]
    have hprenone : List.findSome? (fun s => s.translate x) pre = none := by
      rw [List.findSome?_eq_none_iff]
      intro s hs
      exact rule_translate_of_not_contains s x (hpre s hs)
    rw [hprenone, List.findSome?_cons, rule_translate_of_contains r x hr]
    simp [toU64_eq_toNat _ h0 h1]
  · intro h
    unfold TranslationTable.translate
    have : List.findSome? (fun s => s.translate x) t.rules = none := by
      rw [List.findSome?_eq_none_iff]
      intro s hs
      exact rule_translate_of_not_contains s x (h s hs)
    rw [this]
    rfl

/-- Witness for C1: in the table `[(0,4,+2), (10,19,+5)]` the first rule
containing 12 is `(10,19,+5)`, and `translate 12 = 17`; the input 7 matches
no rule and is returned unchanged. -/
theorem translate_first_match_spec_witness :
    TranslationTable.translate ⟨[⟨0, 4, 2⟩, ⟨10, 19, 5⟩]⟩ 12 = ((12 : Int) + 5).toNat ∧
    TranslationTable.translate ⟨[⟨0, 4, 2⟩, ⟨10, 19, 5⟩]⟩ 7 = 7 :=
  ⟨(translate_first_match_spec ⟨[⟨0, 4, 2⟩, ⟨10, 19, 5⟩]⟩ 12).1 [⟨0, 4, 2⟩] ⟨10, 19, 5⟩ []
      rfl (by decide) (by decide) (by decide) (by decide),
   (translate_first_match_spec ⟨[⟨0, 4, 2⟩, ⟨10, 19, 5⟩]⟩ 7).2 (by decide)⟩

/-! ### C9: the `TranslationRule::new` contract -/

/-- C9: `TranslationRule::new` aborts (modelled as `none`) exactly when
`start > end`; with `start <= end` it succeeds and returns the rule built
from its arguments unchanged.  The abort is a panic, not a value of the
recoverable error type `SolutionError` that the parser returns. -/
theorem rule_new_contract (s e : Nat) (d : Int) :
    (TranslationRule.new s e d = none ↔ e < s) ∧
    (s ≤ e → TranslationRule.new s e d = some { start := s, «end» := e, delta := d }) := by
  unfold TranslationRule.new
  by_cases h : s > e
  · constructor
    · simp [if_pos h]
      omega
    · intro hle
      omega
  · constructor
    · simp [if_neg h]
      omega
    · intro _
      exact if_neg h

/-- Witness for C9. -/
theorem rule_new_contract_witness :
    TranslationRule.new 3 10 7 = some { start := 3, «end» := 10, delta := 7 } :=
  (rule_new_contract 3 10 7).2 (by decide)

/-! ### C2 (code bug): `clear` drops a partially covered rule entirely when
the clear boundary coincides with a rule endpoint -/

/-- C2: evaluating `TranslationTable::clear` at the failing input.  Clearing
`(5,9)` from the table containing exactly the rule `(9,20,+3)` yields the
empty table, although only the portion `[9,9]` of the rule's source range
intersects the cleared range: the surviving portion `[10,20]` (which does
not overlap `[5,9]`, second conjunct) is dropped too, contradicting the
claim that exactly the intersecting portion is removed. -/
theorem clear_drops_boundary_eval :
    (TranslationTable.clear ⟨[⟨9, 20, 3⟩]⟩ (5, 9)).rules = [] ∧
    TranslationRule.overlaps_with (5, 9) (10, 20) = false := by decide

/-! ### C4 (code bug): `collapse_table` panics through `TranslationRule::split` -/

/-- C4: evaluating the code at the failing input.  For the two-stage chain
`[(0,9,+0)]` then `[(9,20,+5)]`, `collapse_table` panics (modelled `none`):
`map` calls `split(9)` on the rule `(0,9,+0)`, whose guard
`start + length >= end` rejects `length = 9` even though the panic message
documents every `0 < length < 10` as allowed.  Meanwhile the chain itself
translates 9 to 14 without trouble, so the claimed equality
`collapse_table().translate(9) == chain.translate(9)` has no left-hand
value. -/
theorem collapse_table_panic_eval :
    Translation.collapse_table
      (.Chain (.Table ⟨[⟨0, 9, 0⟩]⟩) (.Table ⟨[⟨9, 20, 5⟩]⟩)) = none ∧
    Translation.translate
      (.Chain (.Table ⟨[⟨0, 9, 0⟩]⟩) (.Table ⟨[⟨9, 20, 5⟩]⟩)) 9 = 14 := by decide

/-! ### C5 (code bug): `fold` associativity fails because `fold` panics -/

/-- C5: evaluating the code at the failing input.  With `A = [(0,9,+0)]`,
`B = [(9,20,+5)]`, `C = [(0,100,+1)]`, the left association `(A.fold B).fold C`
panics (`A.fold B` hits the `split` guard bug, modelled `none`) while the
right association `A.fold (B.fold C)` returns a table, so
`A.fold(B).fold(C).translate(x) == A.fold(B.fold(C)).translate(x)` has no
left-hand value at any `x`. -/
theorem fold_assoc_panic_eval :
    (do
      let x ← TranslationTable.fold ⟨[⟨0, 9, 0⟩]⟩ ⟨[⟨9, 20, 5⟩]⟩
      TranslationTable.fold x ⟨[⟨0, 100, 1⟩]⟩ : Option TranslationTable) = none ∧
    (do
      let y ← TranslationTable.fold ⟨[⟨9, 20, 5⟩]⟩ ⟨[⟨0, 100, 1⟩]⟩
      TranslationTable.fold ⟨[⟨0, 9, 0⟩]⟩ y : Option TranslationTable) =
      some ⟨[⟨0, 8, 1⟩, ⟨9, 9, 6⟩, ⟨21, 100, 1⟩]⟩ := by decide

/-! ### C8: the counterexample to "naming the offending line" -/

/-- C8 counterexample: the line `"5 x 7"` has three tokens but a non-integer
one; `from_str` returns the structured error built from `ParseIntError`,
whose message does not contain (name) the offending line. -/
theorem from_str_error_not_naming_line_cex :
    TranslationRule.from_str "5 x 7" =
      .error (.InputParsingFailed "Parsing of an integer failed: invalid digit found in string") ∧
    ¬ ("5 x 7".data <:+:
        "Parsing of an integer failed: invalid digit found in string".data) :=
  ⟨rfl, by decide⟩

/-! ### C10: `part_one` -/

theorem nat_min?_eq_some_iff (xs : List Nat) (a : Nat) :
    xs.min? = some a ↔ a ∈ xs ∧ ∀ b ∈ xs, a ≤ b :=
  List.min?_eq_some_iff (Nat.le_refl) (fun a b => by omega) (fun a b c => by omega)

/-- C10: `part_one` returns `Err(NoSolutionFound)` exactly when the seed
list is empty; any `Ok m` it returns is the translation of some seed and a
lower bound of all seeds' translations (i.e. the minimum over all seeds of
the chain-translated value), and a non-empty seed list always yields an
`Ok`. -/
theorem part_one_spec (seeds : List Nat) (t : Translation) :
    (partOne seeds t = .error .NoSolutionFound ↔ seeds = []) ∧
    (∀ m, partOne seeds t = .ok m →
      (∃ s ∈ seeds, t.translate s = m) ∧ ∀ s ∈ seeds, m ≤ t.translate s) ∧
    (seeds ≠ [] → ∃ m, partOne seeds t = .ok m) := by
  unfold partOne
  rcases h : (seeds.map (fun s => t.translate s)).min? with _ | m
  · rw [List.min?_eq_none_iff, List.map_eq_nil_iff] at h
    subst h
    refine ⟨by simp, ?_, by simp⟩
    intro m hm
    simp at hm
  · have hiff := (nat_min?_eq_some_iff (seeds.map (fun s => t.translate s)) m).mp h
    rcases hiff with ⟨hmem, hlb⟩
    have hne : seeds ≠ [] := by
      intro he
      subst he
      simp at hmem
    constructor
    · constructor
      · intro habs
        simp at habs
      · intro he
        exact absurd he hne
    constructor
    · intro m' hm'
      obtain rfl : m = m' := by simpa using hm'
      constructor
      · simpa using hmem
      · intro s hs
        exact hlb _ (List.mem_map_of_mem _ hs)
    · intro _
      exact ⟨m, rfl⟩

/-- Witness for C10: a non-empty seed list through a one-table chain. -/
theorem part_one_spec_witness :
    (∃ s ∈ [14, 2, 11], Translation.translate (.Table ⟨[⟨10, 19, 5⟩]⟩) s = 2) ∧
    ∀ s ∈ [14, 2, 11], 2 ≤ Translation.translate (.Table ⟨[⟨10, 19, 5⟩]⟩) s :=
  (part_one_spec [14, 2, 11] (.Table ⟨[⟨10, 19, 5⟩]⟩)).2.1 2 rfl

/-! ### C6: clear then re-insert round trip -/

theorem mem_insertOrd (r x : TranslationRule) (l : List TranslationRule) :
    x ∈ insertOrd r l ↔ x = r ∨ x ∈ l := by
  induction l with
  | nil => simp [insertOrd]
  | cons y ys ih =>
    unfold insertOrd
    by_cases h : r.start < y.start
    · simp [if_pos h]
    · simp only [if_neg h, List.mem_cons, ih]
      tauto

theorem mem_new (rules : List TranslationRule) (x : TranslationRule) :
    x ∈ (TranslationTable.new rules).rules ↔ x ∈ rules := by
  unfold TranslationTable.new
  exact (List.perm_insertionSort ruleLe rules).mem_iff

theorem fullcover_overlaps (r s : TranslationRule) (hv : s.start ≤ s.«end»)
    (h1 : r.start ≤ s.start) (h2 : s.«end» ≤ r.«end») :
    TranslationRule.overlaps_with r.source_range s.source_range = true := by
  rw [ov_true_iff]
  simp only [TranslationRule.source_range]
  omega

/-- C6: in a table whose rules are valid and pairwise non-overlapping,
clearing exactly the source range of a member rule `r` and then
re-`insert`ing `r` yields a table with the same rules as a set. -/
theorem clear_insert_roundtrip (t : TranslationTable) (r : TranslationRule)
    (hmem : r ∈ t.rules)
    (hval : ∀ s ∈ t.rules, s.start ≤ s.«end»)
    (hinv : nonOverlapping t.rules) :
    ∀ x, x ∈ ((t.clear r.source_range).insert r).rules ↔ x ∈ t.rules := by
  have hov : ∀ s ∈ t.rules, s ≠ r →
      TranslationRule.overlaps_with r.source_range s.source_range = false := by
    obtain ⟨l1, l2, hdec⟩ := List.append_of_mem hmem
    unfold nonOverlapping at hinv
    rw [hdec] at hinv
    intro s hs hne
    rw [hdec] at hs
    rcases List.mem_append.mp hs with h1 | h2
    · have := (List.pairwise_append.mp hinv).2.2 s h1 r (List.mem_cons_self r l2)
      rw [overlaps_with_comm]
      exact this
    · rcases List.mem_cons.mp h2 with he | h2'
      · exact absurd he hne
      · exact (List.pairwise_cons.mp (List.pairwise_append.mp hinv).2.1).1 s h2'
  have hfrag : ∀ s ∈ t.rules,
      clearFragments r.source_range s =
        if r.start ≤ s.start ∧ s.«end» ≤ r.«end» then [] else [s] := by
    intro s hs
    by_cases hfull : r.start ≤ s.start ∧ s.«end» ≤ r.«end»
    · rw [if_pos hfull]
      simp [clearFragments, TranslationRule.source_range, hfull]
    · rw [if_neg hfull]
      have hne : s ≠ r := by
        rintro rfl
        exact hfull ⟨le_refl _, le_refl _⟩
      have hno := hov s hs hne
      simp only [TranslationRule.source_range] at hno
      simp [clearFragments, TranslationRule.source_range, hfull, hno]
  have hmemclear : ∀ x, x ∈ (t.clear r.source_range).rules ↔
      (x ∈ t.rules ∧ ¬ (r.start ≤ x.start ∧ x.«end» ≤ r.«end»)) := by
    intro x
    unfold TranslationTable.clear
    rw [mem_new, List.mem_flatMap]
    constructor
    · rintro ⟨s, hs, hx⟩
      rw [hfrag s hs] at hx
      by_cases hfull : r.start ≤ s.start ∧ s.«end» ≤ r.«end»
      · rw [if_pos hfull] at hx
        simp at hx
      · rw [if_neg hfull] at hx
        simp at hx
        subst hx
        exact ⟨hs, hfull⟩
    · rintro ⟨hx, hnfull⟩
      refine ⟨x, hx, ?_⟩
      rw [hfrag x hx, if_neg hnfull]
      simp
  have hne_of_nfull : ∀ x, ¬ (r.start ≤ x.start ∧ x.«end» ≤ r.«end») → x ≠ r := by
    intro x hnfull he
    exact hnfull (he ▸ ⟨le_refl _, le_refl _⟩)
  have hmemclear2 : ∀ x, x ∈ ((t.clear r.source_range).clear r.source_range).rules ↔
      x ∈ (t.clear r.source_range).rules := by
    intro x
    conv_lhs => rw [TranslationTable.clear]
    rw [mem_new, List.mem_flatMap]
    constructor
    · rintro ⟨s, hs, hx⟩
      have hs' := (hmemclear s).mp hs
      have hno := hov s hs'.1 (hne_of_nfull s hs'.2)
      simp only [TranslationRule.source_range] at hno
      simp [clearFragments, TranslationRule.source_range, hs'.2, hno] at hx
      subst hx
      exact hs
    · intro hx
      have hx' := (hmemclear x).mp hx
      have hno := hov x hx'.1 (hne_of_nfull x hx'.2)
      simp only [TranslationRule.source_range] at hno
      refine ⟨x, hx, ?_⟩
      simp [clearFragments, TranslationRule.source_range, hx'.2, hno]
  intro x
  unfold TranslationTable.insert
  rw [show (⟨insertOrd r ((t.clear r.source_range).clear r.source_range).rules⟩ :
      TranslationTable).rules = insertOrd r ((t.clear r.source_range).clear r.source_range).rules
    from rfl]
  rw [mem_insertOrd, hmemclear2, hmemclear]
  constructor
  · rintro (rfl | ⟨hx, _⟩)
    · exact hmem
    · exact hx
  · intro hx
    by_cases hfull : r.start ≤ x.start ∧ x.«end» ≤ r.«end»
    · left
      by_contra hne
      have hno := hov x hx hne
      have htrue := fullcover_overlaps r x (hval x hx) hfull.1 hfull.2
      rw [htrue] at hno
      exact absurd hno (by simp)
    · right
      exact ⟨hx, hfull⟩

/-- Witness for C6 at a concrete table and rule. -/
theorem clear_insert_roundtrip_witness :
    (⟨10, 19, 5⟩ : TranslationRule) ∈
      ((TranslationTable.clear ⟨[⟨0, 4, 1⟩, ⟨10, 19, 5⟩]⟩ (10, 19)).insert ⟨10, 19, 5⟩).rules ↔
    (⟨10, 19, 5⟩ : TranslationRule) ∈
      ({ rules := [⟨0, 4, 1⟩, ⟨10, 19, 5⟩] } : TranslationTable).rules :=
  clear_insert_roundtrip ⟨[⟨0, 4, 1⟩, ⟨10, 19, 5⟩]⟩ ⟨10, 19, 5⟩
    (by decide) (by decide) (by decide) ⟨10, 19, 5⟩

/-! ### C3: the table invariant -/

theorem pairwise_flatMap {α β : Type} {R : β → β → Prop} {f : α → List β} {l : List α}
    (h1 : l.Pairwise (fun a b => ∀ x ∈ f a, ∀ y ∈ f b, R x y))
    (h2 : ∀ a ∈ l, (f a).Pairwise R) :
    (l.flatMap f).Pairwise R := by
  induction l with
  | nil => simp
  | cons a l ih =>
    rw [List.flatMap_cons, List.pairwise_append]
    refine ⟨h2 a (List.mem_cons_self a l),
      ih (List.pairwise_cons.mp h1).2 (fun b hb => h2 b (List.mem_cons_of_mem a hb)), ?_⟩
    intro x hx y hy
    rw [List.mem_flatMap] at hy
    obtain ⟨b, hb, hyb⟩ := hy
    exact (List.pairwise_cons.mp h1).1 b hb x hx y hyb

theorem new_sorted (rules : List TranslationRule) :
    sortedByStart (TranslationTable.new rules).rules :=
  (List.sorted_insertionSort ruleLe rules).imp (fun h => h)

theorem nonOverlapping_iff_of_perm {l1 l2 : List TranslationRule} (h : l1.Perm l2) :
    nonOverlapping l1 ↔ nonOverlapping l2 := by
  unfold nonOverlapping
  refine h.pairwise_iff ?_
  intro x y hxy
  rw [overlaps_with_comm]
  exact hxy

theorem new_inv (rules : List TranslationRule) (h : nonOverlapping rules) :
    tableInv (TranslationTable.new rules) := by
  refine ⟨new_sorted rules, ?_⟩
  exact (nonOverlapping_iff_of_perm (List.perm_insertionSort ruleLe rules)).mpr h

/-- Case analysis on which fragment of `clearFragments` an element is. -/
theorem clearFragments_cases (rng : Nat × Nat) (s x : TranslationRule)
    (hx : x ∈ clearFragments rng s) :
    (x = s ∧ TranslationRule.overlaps_with rng s.source_range = false) ∨
    (x = { s with «end» := toU64 ((rng.1 : Int) - 1) } ∧ s.start < rng.1 ∧ rng.1 < s.«end») ∨
    (x = { s with start := toU64 ((rng.2 : Int) + 1) } ∧ s.start < rng.2 ∧ rng.2 < s.«end») := by
  unfold clearFragments at hx
  split at hx
  · simp at hx
  · split at hx
    · rename_i h2
      left
      refine ⟨by simpa using hx, by simpa using h2⟩
    · rcases List.mem_append.mp hx with h | h
      · split at h
        · rename_i hg
          right; left
          exact ⟨by simpa using h, hg.1, hg.2⟩
        · simp at h
      · split at h
        · rename_i hg
          right; right
          exact ⟨by simpa using h, hg.1, hg.2⟩
        · simp at h

/-- Each surviving fragment stays inside its rule's source range, is a
valid rule, and keeps the rule's delta. -/
theorem clearFragments_range (rng : Nat × Nat) (s x : TranslationRule)
    (hv : s.start ≤ s.«end») (hwf : s.«end» < u64size)
    (hx : x ∈ clearFragments rng s) :
    s.start ≤ x.start ∧ x.«end» ≤ s.«end» ∧ x.start ≤ x.«end» ∧ x.«end» < u64size := by
  rcases clearFragments_cases rng s x hx with ⟨rfl, _⟩ | ⟨rfl, hg⟩ | ⟨rfl, hg⟩
  · exact ⟨le_refl _, le_refl _, hv, hwf⟩
  · refine ⟨le_refl _, ?_, ?_, ?_⟩ <;> simp only [toU64, u64size] at * <;> omega
  · refine ⟨?_, le_refl _, ?_, hwf⟩ <;> simp only [toU64, u64size] at * <;> omega

/-- The fragments of one rule do not overlap each other. -/
theorem clearFragments_pairwise (rng : Nat × Nat) (s : TranslationRule)
    (hv : s.start ≤ s.«end») (hwf : s.«end» < u64size) (hab : rng.1 ≤ rng.2) :
    (clearFragments rng s).Pairwise
      (fun a b => TranslationRule.overlaps_with a.source_range b.source_range = false) := by
  unfold clearFragments
  split
  · simp
  · split
    · simp
    · by_cases hP : s.start < rng.1 ∧ rng.1 < s.«end» <;>
        by_cases hQ : s.start < rng.2 ∧ rng.2 < s.«end» <;>
        simp [hP, hQ]
      rw [ov_false_iff]
      simp only [TranslationRule.source_range]
      simp only [toU64, u64size] at *
      omega

/-- No rule surviving `clear` overlaps the cleared range. -/
theorem clearFragments_not_overlapping (rng : Nat × Nat) (s x : TranslationRule)
    (hv : s.start ≤ s.«end») (hwf : s.«end» < u64size) (hab : rng.1 ≤ rng.2)
    (hx : x ∈ clearFragments rng s) :
    TranslationRule.overlaps_with rng x.source_range = false := by
  rcases clearFragments_cases rng s x hx with ⟨rfl, h⟩ | ⟨rfl, hg⟩ | ⟨rfl, hg⟩
  · exact h
  · rw [ov_false_iff]
    simp only [TranslationRule.source_range]
    simp only [toU64, u64size] at *
    omega
  · rw [ov_false_iff]
    simp only [TranslationRule.source_range]
    simp only [toU64, u64size] at *
    omega

/-- Fragments of source-disjoint rules are source-disjoint. -/
theorem ov_false_of_within (s1 s2 x y : TranslationRule)
    (h : TranslationRule.overlaps_with s1.source_range s2.source_range = false)
    (hx : s1.start ≤ x.start ∧ x.«end» ≤ s1.«end» ∧ x.start ≤ x.«end»)
    (hy : s2.start ≤ y.start ∧ y.«end» ≤ s2.«end» ∧ y.start ≤ y.«end») :
    TranslationRule.overlaps_with x.source_range y.source_range = false := by
  rw [ov_false_iff] at h ⊢
  simp only [TranslationRule.source_range] at h ⊢
  omega

theorem clear_preserves (t : TranslationTable) (a b : Nat)
    (hno : nonOverlapping t.rules) (hval : validRules t.rules)
    (hab : a ≤ b) (hb : b < u64size) :
    tableInv (t.clear (a, b)) ∧ validRules (t.clear (a, b)).rules := by
  have hflat : (t.rules.flatMap (clearFragments (a, b))).Pairwise
      (fun x y => TranslationRule.overlaps_with x.source_range y.source_range = false) := by
    refine pairwise_flatMap ?_ ?_
    · unfold nonOverlapping at hno
      refine hno.imp_of_mem ?_
      intro s1 s2 hs1 hs2 h12 x hx y hy
      exact ov_false_of_within s1 s2 x y h12
        ((clearFragments_range _ _ _ (hval s1 hs1).1 (hval s1 hs1).2 hx).imp id
          (fun hh => ⟨hh.1, hh.2.1⟩))
        ((clearFragments_range _ _ _ (hval s2 hs2).1 (hval s2 hs2).2 hy).imp id
          (fun hh => ⟨hh.1, hh.2.1⟩))
    · intro s hs
      exact clearFragments_pairwise (a, b) s (hval s hs).1 (hval s hs).2 hab
  refine ⟨⟨new_sorted _, ?_⟩, ?_⟩
  · unfold TranslationTable.clear
    exact (nonOverlapping_iff_of_perm
      (List.perm_insertionSort ruleLe (t.rules.flatMap (clearFragments (a, b))))).mpr hflat
  · intro x hx
    rw [show (t.clear (a, b)).rules =
      List.insertionSort ruleLe (t.rules.flatMap (clearFragments (a, b))) from rfl] at hx
    rw [(List.perm_insertionSort ruleLe _).mem_iff, List.mem_flatMap] at hx
    obtain ⟨s, hs, hxs⟩ := hx
    have := clearFragments_range (a, b) s x (hval s hs).1 (hval s hs).2 hxs
    omega

theorem clear_not_overlapping (t : TranslationTable) (a b : Nat)
    (hval : validRules t.rules) (hab : a ≤ b) (hb : b < u64size) :
    ∀ x ∈ (t.clear (a, b)).rules,
      TranslationRule.overlaps_with (a, b) x.source_range = false := by
  intro x hx
  rw [show (t.clear (a, b)).rules =
    List.insertionSort ruleLe (t.rules.flatMap (clearFragments (a, b))) from rfl] at hx
  rw [(List.perm_insertionSort ruleLe _).mem_iff, List.mem_flatMap] at hx
  obtain ⟨s, hs, hxs⟩ := hx
  exact clearFragments_not_overlapping (a, b) s x (hval s hs).1 (hval s hs).2 hab hxs

theorem insertOrd_sorted (r : TranslationRule) (l : List TranslationRule)
    (h : sortedByStart l) : sortedByStart (insertOrd r l) := by
  induction l with
  | nil => simp [insertOrd, sortedByStart]
  | cons y ys ih =>
    unfold sortedByStart at *
    rw [List.pairwise_cons] at h
    unfold insertOrd
    by_cases hc : r.start < y.start
    · rw [if_pos hc, List.pairwise_cons]
      refine ⟨?_, List.pairwise_cons.mpr h⟩
      intro z hz
      rcases List.mem_cons.mp hz with rfl | hz'
      · exact le_of_lt hc
      · exact le_trans (le_of_lt hc) (h.1 z hz')
    · rw [if_neg hc, List.pairwise_cons]
      refine ⟨?_, ih h.2⟩
      intro z hz
      rcases (mem_insertOrd r z ys).mp hz with rfl | hz'
      · omega
      · exact h.1 z hz'

theorem insertOrd_nonov (r : TranslationRule) (l : List TranslationRule)
    (h : nonOverlapping l)
    (hall : ∀ s ∈ l,
      TranslationRule.overlaps_with r.source_range s.source_range = false) :
    nonOverlapping (insertOrd r l) := by
  induction l with
  | nil => simp [insertOrd, nonOverlapping]
  | cons y ys ih =>
    unfold nonOverlapping at *
    rw [List.pairwise_cons] at h
    unfold insertOrd
    by_cases hc : r.start < y.start
    · rw [if_pos hc, List.pairwise_cons]
      exact ⟨fun z hz => hall z hz, List.pairwise_cons.mpr h⟩
    · rw [if_neg hc, List.pairwise_cons]
      refine ⟨?_, ih h.2 (fun s hs => hall s (List.mem_cons_of_mem y hs))⟩
      intro z hz
      rcases (mem_insertOrd r z ys).mp hz with rfl | hz'
      · rw [overlaps_with_comm]
        exact hall y (List.mem_cons_self y ys)
      · exact h.1 z hz'

theorem insert_preserves (t : TranslationTable) (r : TranslationRule)
    (hno : nonOverlapping t.rules) (hval : validRules t.rules)
    (hr1 : r.start ≤ r.«end») (hr2 : r.«end» < u64size) :
    tableInv (t.insert r) ∧ validRules (t.insert r).rules := by
  have hsr : r.source_range = (r.start, r.«end») := rfl
  have hc := clear_preserves t r.start r.«end» hno hval hr1 hr2
  have hcn := clear_not_overlapping t r.start r.«end» hval hr1 hr2
  have hrules : (t.insert r).rules = insertOrd r (t.clear (r.start, r.«end»)).rules := by
    unfold TranslationTable.insert
    rw [hsr]
  refine ⟨⟨?_, ?_⟩, ?_⟩
  · unfold tableInv at hc
    rw [show sortedByStart (t.insert r).rules =
      sortedByStart (insertOrd r (t.clear (r.start, r.«end»)).rules) from congrArg _ hrules]
    exact insertOrd_sorted r _ hc.1.1
  · rw [show nonOverlapping (t.insert r).rules =
      nonOverlapping (insertOrd r (t.clear (r.start, r.«end»)).rules) from congrArg _ hrules]
    refine insertOrd_nonov r _ hc.1.2 ?_
    intro s hs
    rw [hsr]
    exact hcn s hs
  · intro x hx
    rw [hrules] at hx
    rcases (mem_insertOrd r x _).mp hx with rfl | hx'
    · exact ⟨hr1, hr2⟩
    · exact hc.2 x hx'

/-- C3 (amended): `TranslationTable::new` always sorts its input by `start`;
when the input rules are pairwise non-overlapping, `new` establishes the
full table invariant (sorted and non-overlapping); and `clear` (for a
well-formed range `a <= b`) and `insert` (for a well-formed rule) both
preserve the invariant, together with rule validity.  (`new` does *not*
normalize overlapping input, see the counterexample.) -/
theorem table_invariant_amended :
    (∀ rules, sortedByStart (TranslationTable.new rules).rules) ∧
    (∀ rules, nonOverlapping rules → tableInv (TranslationTable.new rules)) ∧
    (∀ (t : TranslationTable) (a b : Nat), nonOverlapping t.rules → validRules t.rules →
      a ≤ b → b < u64size →
      tableInv (t.clear (a, b)) ∧ validRules (t.clear (a, b)).rules) ∧
    (∀ (t : TranslationTable) (r : TranslationRule), nonOverlapping t.rules →
      validRules t.rules → r.start ≤ r.«end» → r.«end» < u64size →
      tableInv (t.insert r) ∧ validRules (t.insert r).rules) :=
  ⟨new_sorted, new_inv, clear_preserves, insert_preserves⟩

/-- C3 counterexample: `new` applied to two overlapping rules merely sorts
them; the resulting table violates the non-overlap half of the invariant the
claim says `new` establishes on arbitrary input. -/
theorem new_overlapping_cex :
    ¬ nonOverlapping (TranslationTable.new [⟨0, 5, 1⟩, ⟨3, 8, 2⟩]).rules := by decide

/-- Witness for C3 (amended) at concrete tables. -/
theorem table_invariant_amended_witness :
    tableInv (TranslationTable.clear ⟨[⟨0, 9, 2⟩, ⟨20, 29, 1⟩]⟩ (3, 5)) ∧
    tableInv (TranslationTable.insert ⟨[⟨0, 9, 2⟩]⟩ ⟨20, 30, 1⟩) :=
  ⟨(table_invariant_amended.2.2.1 ⟨[⟨0, 9, 2⟩, ⟨20, 29, 1⟩]⟩ 3 5
      (by decide) (by decide) (by decide) (by decide)).1,
   (table_invariant_amended.2.2.2 ⟨[⟨0, 9, 2⟩]⟩ ⟨20, 30, 1⟩
      (by decide) (by decide) (by decide) (by decide)).1⟩

/-! ### C7: the range-based minimum query of `part_two` -/

theorem partTwoGo_cons_skip (ranges : List (Nat × Nat)) (rule : TranslationRule)
    (rest : List TranslationRule)
    (hfind : ranges.find?
      (fun q => TranslationRule.overlaps_with q rule.source_range) = none) :
    partTwoGo ranges (rule :: rest) none = partTwoGo ranges rest none := by
  rw [partTwoGo, hfind]
  rfl

theorem partTwoGo_skip (ranges : List (Nat × Nat)) (pre rest : List TranslationRule)
    (h : ∀ s ∈ pre, ranges.find?
      (fun q => TranslationRule.overlaps_with q s.source_range) = none) :
    partTwoGo ranges (pre ++ rest) none = partTwoGo ranges rest none := by
  induction pre with
  | nil => rfl
  | cons s pre ih =>
    rw [List.cons_append,
      partTwoGo_cons_skip ranges s (pre ++ rest) (h s (List.mem_cons_self s pre))]
    exact ih (fun q hq => h q (List.mem_cons_of_mem s hq))

theorem partTwoGo_cons_match (ranges : List (Nat × Nat)) (rule : TranslationRule)
    (rest : List TranslationRule) (sr : Nat × Nat) (c : Nat)
    (hfind : ranges.find?
      (fun q => TranslationRule.overlaps_with q rule.source_range) = some sr)
    (htr : rule.translate (max rule.start sr.1) = some c) :
    partTwoGo ranges (rule :: rest) none = partTwoGo ranges rest (some c) := by
  rw [partTwoGo, hfind]
  show (match rule.translate (max rule.start sr.1) with
    | some v => partTwoGo ranges rest (some v)
    | none => none) = partTwoGo ranges rest (some c)
  rw [htr]

theorem partTwoGo_stop (ranges : List (Nat × Nat)) (post : List TranslationRule) (c : Nat)
    (hpost : ∀ s ∈ post, c ≤ destStart s) :
    partTwoGo ranges post (some c) = some (some c) := by
  cases post with
  | nil => rfl
  | cons s rest =>
    have hlt : ¬ destStart s < c := by
      have := hpost s (List.mem_cons_self s rest)
      omega
    rw [partTwoGo, if_neg (by simpa [Option.all] using hlt)]

/-- C7 (amended): scanning the collapsed table's rules in increasing order
of destination start, the first rule `r` whose source range intersects some
input range yields the candidate `r.translate(max(r.start, range.start))`
(for the first matching input range), and `part_two` returns that candidate
provided every later rule's destination start is at least the candidate.
(Without that extra condition the scan does not stop at the first match and
need not return the smallest reachable destination value; see the
counterexample.) -/
theorem part_two_first_match (seeds : List Nat) (t : Translation) (tbl : TranslationTable)
    (pre post : List TranslationRule) (r : TranslationRule) (sr : Nat × Nat) (c : Nat)
    (hc : t.collapse_table = some tbl)
    (hsorted : List.insertionSort destLe tbl.rules = pre ++ r :: post)
    (hpre : ∀ s ∈ pre, (seedRanges seeds).find?
      (fun q => TranslationRule.overlaps_with q s.source_range) = none)
    (hfind : (seedRanges seeds).find?
      (fun q => TranslationRule.overlaps_with q r.source_range) = some sr)
    (htr : r.translate (max r.start sr.1) = some c)
    (hpost : ∀ s ∈ post, c ≤ destStart s) :
    partTwo seeds t = some (.ok c) := by
  unfold partTwo
  rw [hc]
  show (partTwoGo (seedRanges seeds) (List.insertionSort destLe tbl.rules) none).bind _ = _
  rw [hsorted, partTwoGo_skip _ _ _ hpre, partTwoGo_cons_match _ _ _ _ _ hfind htr,
    partTwoGo_stop _ _ _ hpost]
  rfl

/-- Witness for C7 (amended): a one-rule table, seed ranges `[(12,15)]`;
the first (only) rule matches and `part_two` returns `translate(12) = 17`. -/
theorem part_two_first_match_witness :
    partTwo [12, 3] (.Table ⟨[⟨10, 19, 5⟩]⟩) = some (.ok 17) :=
  part_two_first_match [12, 3] (.Table ⟨[⟨10, 19, 5⟩]⟩) ⟨[⟨10, 19, 5⟩]⟩
    [] [] ⟨10, 19, 5⟩ (12, 15) 17 rfl rfl (by simp) rfl rfl (by simp)

/-- C7 counterexample: with the flat table
`[(100,109,-50), (200,299,-146)]` (destination starts 50 and 54) and seed
ranges `[(105,106), (290,295)]`, the first rule in destination order that
intersects an input range is `(100,109,-50)` with candidate
`translate(105) = 55`, yet `part_two` keeps scanning (54 < 55) and
overwrites the candidate with 144, returning `Ok 144` even though the
destination value 55 is reachable from the input range `(105,106)`: the
scan neither stops at the first match nor returns the smallest reachable
destination value. -/
theorem part_two_not_minimum_cex :
    partTwo [105, 1, 290, 5] (.Table ⟨[⟨100, 109, -50⟩, ⟨200, 299, -146⟩]⟩) =
      some (.ok 144) ∧
    (105, 106) ∈ seedRanges [105, 1, 290, 5] ∧
    TranslationTable.translate ⟨[⟨100, 109, -50⟩, ⟨200, 299, -146⟩]⟩ 105 = 55 ∧
    (55 : Nat) < 144 :=
  ⟨rfl, by decide, by decide, by decide⟩

/-! ### C8: the amended parsing contract -/

/-- C8 (amended): for a line of exactly three `u64` tokens
`dest src length` (with `length >= 1`, `src + length` representable and the
delta in `i64` range), `from_str` returns
`Ok {start: src, end: src+length-1, delta: dest - src}`.  A wrong token
count yields the structured error `"Could not parse rule: <line>"`, which
names the offending line; a failed integer parse on any of the three tokens
yields the structured error `"Parsing of an integer failed: <ParseIntError>"`,
which does *not* name the offending line (counterexample above).  Both are
`Err` values, never panics. -/
theorem from_str_amended (s : String) :
    (∀ ta tb tc d st len, splitAsciiWhitespace s = [ta, tb, tc] →
      parseU64 ta = .ok d → parseU64 tb = .ok st → parseU64 tc = .ok len →
      1 ≤ len → st + len ≤ u64size →
      -(9223372036854775808 : Int) ≤ (d : Int) - (st : Int) →
      (d : Int) - (st : Int) < 9223372036854775808 →
      TranslationRule.from_str s =
        .ok { start := st, «end» := st + len - 1, delta := (d : Int) - (st : Int) }) ∧
    (∀ ts, splitAsciiWhitespace s = ts → ts.length ≠ 3 →
      TranslationRule.from_str s =
        .error (.InputParsingFailed ("Could not parse rule: " ++ s))) ∧
    (∀ ta tb tc e, splitAsciiWhitespace s = [ta, tb, tc] → parseU64 ta = .error e →
      TranslationRule.from_str s =
        .error (.InputParsingFailed ("Parsing of an integer failed: " ++ e.display))) ∧
    (∀ ta tb tc d e, splitAsciiWhitespace s = [ta, tb, tc] → parseU64 ta = .ok d →
      parseU64 tb = .error e →
      TranslationRule.from_str s =
        .error (.InputParsingFailed ("Parsing of an integer failed: " ++ e.display))) ∧
    (∀ ta tb tc d st e, splitAsciiWhitespace s = [ta, tb, tc] → parseU64 ta = .ok d →
      parseU64 tb = .ok st → parseU64 tc = .error e →
      TranslationRule.from_str s =
        .error (.InputParsingFailed ("Parsing of an integer failed: " ++ e.display))) := by
  refine ⟨?_, ?_, ?_, ?_, ?_⟩
  · intro ta tb tc d st len hsplit hta htb htc hlen hrep hd1 hd2
    unfold TranslationRule.from_str
    rw [hsplit]
    simp only [hta, htb, htc]
    have h1 : toU64 ((st : Int) + (len : Int) - 1) = st + len - 1 := by
      simp only [toU64, u64size] at *
      omega
    have h2 : wi64 ((d : Int) - (st : Int)) = (d : Int) - (st : Int) := by
      simp only [wi64]
      omega
    rw [h1, h2]
  · intro ts hts hlen
    unfold TranslationRule.from_str
    rw [hts]
    rcases ts with _ | ⟨a, _ | ⟨b, _ | ⟨c, _ | ⟨d, rest⟩⟩⟩⟩
    · rfl
    · rfl
    · rfl
    · exact absurd rfl hlen
    · rfl
  · intro ta tb tc e hsplit hta
    unfold TranslationRule.from_str
    rw [hsplit]
    simp only [hta]
  · intro ta tb tc d e hsplit hta htb
    unfold TranslationRule.from_str
    rw [hsplit]
    simp only [hta, htb]
  · intro ta tb tc d st e hsplit hta htb htc
    unfold TranslationRule.from_str
    rw [hsplit]
    simp only [hta, htb, htc]

/-- Witness for C8 (amended) on the line `"50 98 2"` (a rule line of the
puzzle's sample input). -/
theorem from_str_amended_witness :
    TranslationRule.from_str "50 98 2" =
      .ok { start := 98, «end» := 98 + 2 - 1, delta := (50 : Int) - (98 : Int) } :=
  (from_str_amended "50 98 2").1 "50" "98" "2" 50 98 2 rfl rfl rfl rfl
    (by decide) (by decide) (by decide) (by decide)
